import Mathlib

/-!
Verification of the database maintenance jobs in
`store/postgres/src/jobs.rs` (vacuum job, unused-deployment reclamation
job).  The catalog tables touched by the jobs are embedded as lists of
rows, `BigDecimal` columns as unbounded integers, and every fallible
database statement as an `Except`-valued function over the catalog state.
Failure injection is modelled by a `Faults` environment consulted at each
statement, and the enclosing `conn.transaction` of the removal loop by
discarding the intermediate state whenever the removal body errors.
-/

namespace Jobs

/-- The individual database statements a job issues; used to inject
failures at each of them. -/
inductive Step where
  | getConn
  | candidateQuery
  | findSchemaLookup
  | metadataDelete
  | schemaDrop
  | catalogDelete
  | versionDelete
  | subgraphNameLookup
  | bookkeepingRead
  | sizesRead
  | auditInsert
  | vacuumAnalyze
  deriving DecidableEq

/-- `StoreError` as observed by the jobs: an injected storage-access
failure at some statement, diesel's not-found, a failing `drop schema`,
or the invariant violation of a catalog id with no schema row. -/
inductive StoreError where
  | fault (s : Step)
  | notFound
  | schemaMissing (name : String)
  | invariantViolation (id : String)
  deriving DecidableEq

/-- `DeploymentSchemaVersion` (aliased `DSV` in the source): the storage
mode of a deployment. -/
inductive DeploymentSchemaVersion where
  | Split
  | Relational
  deriving DecidableEq

/-- A row of `public.deployment_schemas` (the `Schema` struct, aliased
`DeploymentSchema` in the source): physical schema name, deployment id,
storage mode. -/
structure DeploymentSchema where
  name : String
  subgraph : String
  version : DeploymentSchemaVersion
  deriving DecidableEq

/-- The columns of `subgraphs.subgraph_deployment` read by the jobs. -/
structure SubgraphDeploymentRow where
  id : String
  entity_count : Int
  latest_ethereum_block_number : Option Int
  deriving DecidableEq

/-- The columns of the `subgraph` table read by the jobs. -/
structure SubgraphRow where
  id : String
  name : String
  current_version : Option String
  pending_version : Option String
  deriving DecidableEq

/-- The columns of the `subgraph_version` table read by the jobs. -/
structure SubgraphVersionRow where
  id : String
  deployment : String
  subgraph : String
  created_at : Int
  deriving DecidableEq

/-- A row of `subgraph_sizes`.  The source reads `row_estimate` as an
`f32` and floors it into a numeric; size statistics rows hold integral
values here, on which the floor is the identity. -/
structure SubgraphSizesRow where
  subgraph : String
  row_estimate : Int
  total_bytes : Int
  index_bytes : Int
  toast_bytes : Int
  table_bytes : Int
  deriving DecidableEq

/-- A row of the append-only `removed_deployments` audit table. -/
structure RemovalRecord where
  deployment : String
  schema_name : String
  created_at : Option Int
  subgraphs : String
  entity_count : Option Int
  latest_ethereum_block_number : Option Int
  row_count : Option Int
  total_bytes : Option Int
  index_bytes : Option Int
  toast_bytes : Option Int
  table_bytes : Option Int
  deriving DecidableEq

/-- The catalog state the two jobs read and write: the physical schemas
present in the database plus the rows of each table the reclamation job
touches.  `metadata` holds one entry (the owning deployment id) per
domain-specific metadata row. -/
structure DB where
  schemas : List String
  deployment_schemas : List DeploymentSchema
  subgraph_deployment : List SubgraphDeploymentRow
  subgraph_deployment_assignment : List String
  subgraph : List SubgraphRow
  subgraph_version : List SubgraphVersionRow
  subgraph_sizes : List SubgraphSizesRow
  removed_deployments : List RemovalRecord
  metadata : List String
  deriving DecidableEq

/-- A failure-injection environment: whether the statement `s`, issued
for the deployment with the given id, fails.  Statements that are not
specific to one deployment are consulted with the empty id. -/
def Faults : Type := Step → String → Bool

/-- The fault environment of a healthy database: no statement fails. -/
def noFaults : Faults := fun _ _ => false

/-- `bigdecimal::ToPrimitive::to_i32`: the value, when it is representable
as a signed 32-bit integer. -/
def to_i32 (x : Int) : Option Int :=
  if -2147483648 ≤ x ∧ x < 2147483648 then some x else none

/-- Modelled from the spec: `find_schema` (from `crate::entities`, whose
source is not part of this tree) resolves a deployment id to its
`deployment_schemas` row; per the spec, the id comes from the catalog
just queried, so a missing row is an unrecoverable invariant violation
rather than a normal empty result. -/
def find_schema (faults : Faults) (db : DB) (id : String) :
    Except StoreError (Option DeploymentSchema) :=
  if faults .findSchemaLookup id then .error (.fault .findSchemaLookup) else
  match db.deployment_schemas.find? (fun r => decide (r.subgraph = id)) with
  | some r => .ok (some r)
  | none => .error (.invariantViolation id)

/-- The filters of the candidate query in `next_removable_deployment`
(jobs.rs lines 76-95), applied to one `subgraph_deployment` id: the
deployment uses relational storage, is not assigned, and is not the
current or pending version of any subgraph. -/
def removable (db : DB) (id : String) : Bool :=
  (db.deployment_schemas.any fun r =>
      decide (r.subgraph = id ∧ r.version = DeploymentSchemaVersion.Relational))
  && !(db.subgraph_deployment_assignment.any fun a => decide (a = id))
  && !(db.subgraph_version.any fun v =>
        decide (v.deployment = id) &&
        db.subgraph.any fun s =>
          decide (s.id = v.subgraph ∧
            (s.current_version = some v.id ∨ s.pending_version = some v.id)))

/-- `RemoveDeploymentsJob::next_removable_deployment` (jobs.rs lines
66-105): the first `subgraph_deployment` id passing the eligibility
filters, resolved to its full `deployment_schemas` row. -/
def next_removable_deployment (faults : Faults) (db : DB) :
    Except StoreError (Option DeploymentSchema) :=
  if faults .candidateQuery "" then .error (.fault .candidateQuery) else
  match db.subgraph_deployment.find? (fun d => removable db d.id) with
  | some d => find_schema faults db d.id
  | none => .ok none

/-- Modelled from the spec: the generated SQL in
`sql/remove_metadata.sql` (not part of this source tree) deletes every
domain-specific metadata row referencing the deployment and reports how
many rows it deleted. -/
def remove_metadata (db : DB) (id : String) : DB × Int :=
  let removed := db.metadata.filter (fun m => decide (m = id))
  ({ db with metadata := db.metadata.filter (fun m => decide (¬ m = id)) },
    (removed.length : Int))

/-- `RemoveDeploymentsJob::remove_versions` (jobs.rs lines 110-135):
delete every `subgraph_version` row pointing at the deployment, return
the smallest `created_at` among the deleted rows that is representable
as an `i32`, and the comma-joined names of the subgraphs that used the
deployment. -/
def remove_versions (faults : Faults) (dep : DeploymentSchema) (db : DB) :
    Except StoreError (DB × Option Int × String) :=
  if faults .versionDelete dep.subgraph then .error (.fault .versionDelete) else
  let removed := db.subgraph_version.filter (fun v => decide (v.deployment = dep.subgraph))
  let db1 := { db with
    subgraph_version := db.subgraph_version.filter (fun v => decide (¬ v.deployment = dep.subgraph)) }
  let created_at := ((removed.map (fun v => to_i32 v.created_at)).filterMap id).min?
  if faults .subgraphNameLookup dep.subgraph then .error (.fault .subgraphNameLookup) else
  let ids := removed.map (fun v => v.subgraph)
  let subgraphs := String.intercalate ","
    ((db1.subgraph.filter (fun s => decide (s.id ∈ ids))).map (fun s => s.name))
  .ok (db1, created_at, subgraphs)

/-- `RemoveDeploymentsJob::record_removal` (jobs.rs lines 138-194): read
the pre-deletion bookkeeping row and the best-effort size statistics,
then insert one `removed_deployments` audit row. -/
def record_removal (faults : Faults) (dep : DeploymentSchema) (created_at : Option Int)
    (subgraphs : String) (db : DB) : Except StoreError (DB × Option Int) :=
  if faults .bookkeepingRead dep.subgraph then .error (.fault .bookkeepingRead) else
  match db.subgraph_deployment.find? (fun d => decide (d.id = dep.subgraph)) with
  | none => .error .notFound
  | some drow =>
    let entity_count := to_i32 drow.entity_count
    let latest_block_number := drow.latest_ethereum_block_number.bind to_i32
    if faults .sizesRead dep.subgraph then .error (.fault .sizesRead) else
    let sizes := db.subgraph_sizes.find? (fun z => decide (z.subgraph = dep.subgraph))
    let r : RemovalRecord :=
      { deployment := dep.subgraph
        schema_name := dep.name
        created_at := created_at
        subgraphs := subgraphs
        entity_count := entity_count
        latest_ethereum_block_number := latest_block_number
        row_count := sizes.map (fun z => z.row_estimate)
        total_bytes := sizes.map (fun z => z.total_bytes)
        index_bytes := sizes.map (fun z => z.index_bytes)
        toast_bytes := sizes.map (fun z => z.toast_bytes)
        table_bytes := sizes.map (fun z => z.table_bytes) }
    if faults .auditInsert dep.subgraph then .error (.fault .auditInsert) else
    .ok ({ db with removed_deployments := db.removed_deployments ++ [r] }, entity_count)

/-- `RemoveDeploymentsJob::remove_deployment` (jobs.rs lines 196-234):
the removal steps in source order — metadata delete, cascading schema
drop (which fails when the schema does not exist), catalog-row delete,
version delete, audit insert — returning the entity count (0 when not
representable) and the number of metadata rows removed. -/
def remove_deployment (faults : Faults) (dep : DeploymentSchema) (db : DB) :
    Except StoreError (DB × Int × Int) :=
  if faults .metadataDelete dep.subgraph then .error (.fault .metadataDelete) else
  let md := remove_metadata db dep.subgraph
  let db1 := md.1
  let metadata_count := md.2
  if faults .schemaDrop dep.subgraph then .error (.fault .schemaDrop) else
  if dep.name ∈ db1.schemas then
    let db2 := { db1 with schemas := db1.schemas.filter (fun n => decide (¬ n = dep.name)) }
    if faults .catalogDelete dep.subgraph then .error (.fault .catalogDelete) else
    let db3 := { db2 with
      deployment_schemas := db2.deployment_schemas.filter (fun r => decide (¬ r.name = dep.name)) }
    match remove_versions faults dep db3 with
    | .error e => .error e
    | .ok (db4, created_at, subgraphs) =>
      match record_removal faults dep created_at subgraphs db4 with
      | .error e => .error e
      | .ok (db5, entity_count) => .ok (db5, entity_count.getD 0, metadata_count)
  else .error (.schemaMissing dep.name)

/-- The outcome of one invocation of the removal loop: the final catalog
state, the deployments removed in order, the elapsed wall-clock time, and
the error that ended the loop, if any. -/
structure LoopResult where
  db : DB
  removed : List DeploymentSchema
  elapsed : Nat
  err : Option StoreError
  deriving DecidableEq

/-- The body of `RemoveDeploymentsJob::removal_loop` (jobs.rs lines
244-257), with the duration of each removal supplied by `dur` and the
time budget by `limit`.  Each removal runs inside `conn.transaction`: on
an error of `remove_deployment` the state reverts to the one before the
transaction and the `?` operator ends the loop with that error.  The
elapsed-time budget is checked only after a completed removal.  `fuel`
bounds the iterations; `removal_loop` supplies enough fuel that it never
runs out, since every removal deletes a `deployment_schemas` row. -/
def removal_loop_aux (faults : Faults) (dur : String → Nat) (limit : Nat) :
    Nat → DB → Nat → LoopResult
  | 0, db, elapsed => ⟨db, [], elapsed, none⟩
  | fuel + 1, db, elapsed =>
    match next_removable_deployment faults db with
    | .error e => ⟨db, [], elapsed, some e⟩
    | .ok none => ⟨db, [], elapsed, none⟩
    | .ok (some dep) =>
      match remove_deployment faults dep db with
      | .error e => ⟨db, [], elapsed, some e⟩
      | .ok (db1, _entity_count, _metadata_count) =>
        let elapsed1 := elapsed + dur dep.subgraph
        if limit < elapsed1 then ⟨db1, [dep], elapsed1, none⟩
        else
          let r := removal_loop_aux faults dur limit fuel db1 elapsed1
          ⟨r.db, dep :: r.removed, r.elapsed, r.err⟩

/-- `RemoveDeploymentsJob::removal_loop` starting from elapsed time
`elapsed`, with fuel sufficient for any run. -/
def removal_loop (faults : Faults) (dur : String → Nat) (limit : Nat)
    (db : DB) (elapsed : Nat) : LoopResult :=
  removal_loop_aux faults dur limit (db.deployment_schemas.length + 1) db elapsed

/-- `TIME_LIMIT` (jobs.rs line 239), in seconds. -/
def TIME_LIMIT : Nat := 300

/-- What a `Job::run` invocation leaves behind: the catalog state and
the error it logged, if any.  `run` has no error channel of its own. -/
structure JobOutcome where
  db : DB
  logged_error : Option StoreError
  deriving DecidableEq

/-- `VacuumDeploymentsJob::vacuum` (jobs.rs lines 39-43): get a
connection and issue the vacuum statement; either can fail. -/
def vacuum (faults : Faults) : Except StoreError Unit :=
  if faults .getConn "" then .error (.fault .getConn) else
  if faults .vacuumAnalyze "" then .error (.fault .vacuumAnalyze) else
  .ok ()

/-- `Job::run` for `VacuumDeploymentsJob` (jobs.rs lines 51-58): any
failure of `vacuum` is converted to a log entry. -/
def runVacuumJob (faults : Faults) (db : DB) : JobOutcome :=
  match vacuum faults with
  | .ok _ => ⟨db, none⟩
  | .error e => ⟨db, some e⟩

/-- `Job::run` for `RemoveDeploymentsJob` (jobs.rs lines 267-271)
together with the connection acquisition at the top of `removal_loop`:
any failure of the loop is converted to a log entry. -/
def runRemoveJob (faults : Faults) (dur : String → Nat) (db : DB) : JobOutcome :=
  if faults .getConn "" then ⟨db, some (.fault .getConn)⟩ else
  let r := removal_loop faults dur TIME_LIMIT db 0
  ⟨r.db, r.err⟩

/-- One `Runner::register` call: the registered job's name and its
interval in seconds. -/
structure Registration where
  job_name : String
  interval : Nat
  deriving DecidableEq

/-- `Job::name` of `VacuumDeploymentsJob` (jobs.rs line 48). -/
def vacuumJobName : String := "Vacuum subgraphs.subgraph_deployment"

/-- `Job::name` of `RemoveDeploymentsJob` (jobs.rs line 264). -/
def removeJobName : String := "Remove unused deployments"

/-- `register` (jobs.rs lines 19-24): the registrations performed at
process startup, in order. -/
def register : List Registration := [⟨vacuumJobName, 60⟩]

/-- The spec's eligibility invariant for a deployment id: storage mode is
relational, no assignment row references it, and no version row
referencing it is the current or pending version of its subgraph. -/
def EligibleSpec (db : DB) (id : String) : Prop :=
  (∃ r ∈ db.deployment_schemas,
      r.subgraph = id ∧ r.version = DeploymentSchemaVersion.Relational)
  ∧ (¬ ∃ a ∈ db.subgraph_deployment_assignment, a = id)
  ∧ (¬ ∃ v ∈ db.subgraph_version, v.deployment = id ∧
       ∃ s ∈ db.subgraph, s.id = v.subgraph ∧
         (s.current_version = some v.id ∨ s.pending_version = some v.id))

/-- Well-formedness of a catalog state, maintained by the store: every
cataloged deployment has its physical schema and its bookkeeping row. -/
def WfDB (db : DB) : Prop :=
  (∀ r ∈ db.deployment_schemas, r.name ∈ db.schemas)
  ∧ (∀ r ∈ db.deployment_schemas, ∃ d ∈ db.subgraph_deployment, d.id = r.subgraph)

/-- The statements issued inside the removal transaction, in order. -/
def removalSteps : List Step :=
  [.metadataDelete, .schemaDrop, .catalogDelete, .versionDelete,
   .subgraphNameLookup, .bookkeepingRead, .sizesRead, .auditInsert]

/-- The `subgraph_version` rows the removal of `dep` deletes. -/
def deletedVersions (dep : DeploymentSchema) (db : DB) : List SubgraphVersionRow :=
  db.subgraph_version.filter (fun v => decide (v.deployment = dep.subgraph))

/-- The `created_at` value `remove_versions` computes for `dep` on `db`. -/
def createdAtOf (dep : DeploymentSchema) (db : DB) : Option Int :=
  (((deletedVersions dep db).map (fun v => to_i32 v.created_at)).filterMap id).min?

/-- The comma-joined subgraph names `remove_versions` computes. -/
def subgraphsOf (dep : DeploymentSchema) (db : DB) : String :=
  String.intercalate ","
    ((db.subgraph.filter
        (fun s => decide (s.id ∈ (deletedVersions dep db).map (fun v => v.subgraph)))).map
      (fun s => s.name))

/-- The size-statistics row `record_removal` reads, when present. -/
def sizesOf (dep : DeploymentSchema) (db : DB) : Option SubgraphSizesRow :=
  db.subgraph_sizes.find? (fun z => decide (z.subgraph = dep.subgraph))

/-- The audit row `record_removal` inserts. -/
def auditRow (dep : DeploymentSchema) (created_at : Option Int) (subgraphs : String)
    (drow : SubgraphDeploymentRow) (sizes : Option SubgraphSizesRow) : RemovalRecord :=
  { deployment := dep.subgraph
    schema_name := dep.name
    created_at := created_at
    subgraphs := subgraphs
    entity_count := to_i32 drow.entity_count
    latest_ethereum_block_number := drow.latest_ethereum_block_number.bind to_i32
    row_count := sizes.map (fun z => z.row_estimate)
    total_bytes := sizes.map (fun z => z.total_bytes)
    index_bytes := sizes.map (fun z => z.index_bytes)
    toast_bytes := sizes.map (fun z => z.toast_bytes)
    table_bytes := sizes.map (fun z => z.table_bytes) }

/-- The catalog state after a successful removal of `dep` whose
bookkeeping row is `drow`. -/
def erased (dep : DeploymentSchema) (db : DB) (drow : SubgraphDeploymentRow) : DB :=
  { db with
    metadata := db.metadata.filter (fun m => decide (¬ m = dep.subgraph))
    schemas := db.schemas.filter (fun n => decide (¬ n = dep.name))
    deployment_schemas := db.deployment_schemas.filter (fun r => decide (¬ r.name = dep.name))
    subgraph_version := db.subgraph_version.filter (fun v => decide (¬ v.deployment = dep.subgraph))
    removed_deployments := db.removed_deployments ++
      [auditRow dep (createdAtOf dep db) (subgraphsOf dep db) drow (sizesOf dep db)] }

theorem removable_iff (db : DB) (id : String) :
    removable db id = true ↔ EligibleSpec db id := by
  simp only [removable, EligibleSpec, List.any_eq_true, Bool.and_eq_true, Bool.not_eq_true,
    decide_eq_true_eq, List.any_eq_false, Bool.and_eq_false_iff, decide_eq_false_iff_not,
    not_exists, not_and, not_or]
  aesop

theorem remove_versions_eq (faults : Faults) (dep : DeploymentSchema) (db : DB)
    (h1 : faults .versionDelete dep.subgraph = false)
    (h2 : faults .subgraphNameLookup dep.subgraph = false) :
    remove_versions faults dep db =
      .ok ({ db with subgraph_version :=
               db.subgraph_version.filter (fun v => decide (¬ v.deployment = dep.subgraph)) },
           createdAtOf dep db, subgraphsOf dep db) := by
  simp [remove_versions, h1, h2, createdAtOf, subgraphsOf, deletedVersions]

theorem record_removal_eq (faults : Faults) (dep : DeploymentSchema) (created_at : Option Int)
    (subgraphs : String) (db : DB) (drow : SubgraphDeploymentRow)
    (h1 : faults .bookkeepingRead dep.subgraph = false)
    (h2 : faults .sizesRead dep.subgraph = false)
    (h3 : faults .auditInsert dep.subgraph = false)
    (hfind : db.subgraph_deployment.find? (fun d => decide (d.id = dep.subgraph)) = some drow) :
    record_removal faults dep created_at subgraphs db =
      .ok ({ db with removed_deployments :=
               db.removed_deployments ++ [auditRow dep created_at subgraphs drow (sizesOf dep db)] },
           to_i32 drow.entity_count) := by
  simp [record_removal, h1, h2, h3, hfind, auditRow, sizesOf]

theorem remove_deployment_noFaults_eq (dep : DeploymentSchema) (db : DB)
    (drow : SubgraphDeploymentRow)
    (hfind : db.subgraph_deployment.find? (fun d => decide (d.id = dep.subgraph)) = some drow)
    (hschema : dep.name ∈ db.schemas) :
    remove_deployment noFaults dep db =
      .ok (erased dep db drow, (to_i32 drow.entity_count).getD 0,
           ((db.metadata.filter (fun m => decide (m = dep.subgraph))).length : Int)) := by
  simp [remove_deployment, remove_metadata, remove_versions, record_removal, noFaults, hschema,
    hfind, erased, auditRow, createdAtOf, subgraphsOf, deletedVersions, sizesOf]

theorem remove_deployment_noFaults_ok_inv (dep : DeploymentSchema) (db db2 : DB) (ec mc : Int)
    (h : remove_deployment noFaults dep db = .ok (db2, ec, mc)) :
    ∃ drow, db.subgraph_deployment.find? (fun d => decide (d.id = dep.subgraph)) = some drow
      ∧ dep.name ∈ db.schemas
      ∧ db2 = erased dep db drow
      ∧ ec = (to_i32 drow.entity_count).getD 0 := by
  by_cases hschema : dep.name ∈ db.schemas
  · cases hfind : db.subgraph_deployment.find? (fun d => decide (d.id = dep.subgraph)) with
    | none =>
      exfalso
      simp [remove_deployment, remove_metadata, remove_versions, record_removal, noFaults,
        hschema, hfind] at h
    | some drow =>
      rw [remove_deployment_noFaults_eq dep db drow hfind hschema] at h
      have h2 := h
      simp only [Except.ok.injEq, Prod.mk.injEq] at h2
      exact ⟨drow, rfl, hschema, h2.1.symm, h2.2.1.symm⟩
  · exfalso
    simp [remove_deployment, remove_metadata, noFaults, hschema] at h

theorem remove_deployment_error_of_fault (faults : Faults) (dep : DeploymentSchema) (db : DB)
    (hx : ∃ s ∈ removalSteps, faults s dep.subgraph = true) :
    ∃ e, remove_deployment faults dep db = .error e := by
  cases h1 : faults .metadataDelete dep.subgraph with
  | true => exact ⟨.fault .metadataDelete, by simp [remove_deployment, h1]⟩
  | false =>
  cases h2 : faults .schemaDrop dep.subgraph with
  | true => exact ⟨.fault .schemaDrop, by simp [remove_deployment, h1, h2]⟩
  | false =>
  by_cases hs : dep.name ∈ db.schemas
  case neg =>
    exact ⟨.schemaMissing dep.name, by simp [remove_deployment, remove_metadata, h1, h2, hs]⟩
  case pos =>
  cases h3 : faults .catalogDelete dep.subgraph with
  | true => exact ⟨.fault .catalogDelete, by simp [remove_deployment, remove_metadata, h1, h2, hs, h3]⟩
  | false =>
  cases h4 : faults .versionDelete dep.subgraph with
  | true =>
    exact ⟨.fault .versionDelete,
      by simp [remove_deployment, remove_metadata, remove_versions, h1, h2, hs, h3, h4]⟩
  | false =>
  cases h5 : faults .subgraphNameLookup dep.subgraph with
  | true =>
    exact ⟨.fault .subgraphNameLookup,
      by simp [remove_deployment, remove_metadata, remove_versions, h1, h2, hs, h3, h4, h5]⟩
  | false =>
  cases h6 : faults .bookkeepingRead dep.subgraph with
  | true =>
    exact ⟨.fault .bookkeepingRead,
      by simp [remove_deployment, remove_metadata, remove_versions, record_removal,
        h1, h2, hs, h3, h4, h5, h6]⟩
  | false =>
  cases hf : db.subgraph_deployment.find? (fun d => decide (d.id = dep.subgraph)) with
  | none =>
    exact ⟨.notFound,
      by simp [remove_deployment, remove_metadata, remove_versions, record_removal,
        h1, h2, hs, h3, h4, h5, h6, hf]⟩
  | some drow =>
  cases h7 : faults .sizesRead dep.subgraph with
  | true =>
    exact ⟨.fault .sizesRead,
      by simp [remove_deployment, remove_metadata, remove_versions, record_removal,
        h1, h2, hs, h3, h4, h5, h6, hf, h7]⟩
  | false =>
  cases h8 : faults .auditInsert dep.subgraph with
  | true =>
    exact ⟨.fault .auditInsert,
      by simp [remove_deployment, remove_metadata, remove_versions, record_removal,
        h1, h2, hs, h3, h4, h5, h6, hf, h7, h8]⟩
  | false =>
    exact absurd hx (by simp [removalSteps, h1, h2, h3, h4, h5, h6, h7, h8])

theorem next_removable_noFaults_some_inv (db : DB) (dep : DeploymentSchema)
    (h : next_removable_deployment noFaults db = .ok (some dep)) :
    dep ∈ db.deployment_schemas ∧ removable db dep.subgraph = true
      ∧ ∃ drow ∈ db.subgraph_deployment, drow.id = dep.subgraph := by
  simp only [next_removable_deployment, noFaults, Bool.false_eq_true, if_false] at h
  cases hfind : db.subgraph_deployment.find? (fun d => removable db d.id) with
  | none => rw [hfind] at h; simp at h
  | some d0 =>
    rw [hfind] at h
    simp only [find_schema, noFaults, Bool.false_eq_true, if_false] at h
    cases hds : db.deployment_schemas.find? (fun r => decide (r.subgraph = d0.id)) with
    | none => rw [hds] at h; simp at h
    | some r =>
      rw [hds] at h
      have hrd : r = dep := by simpa using h
      subst hrd
      have hsub : r.subgraph = d0.id := by simpa using List.find?_some hds
      refine ⟨List.mem_of_find?_eq_some hds, ?_, d0, List.mem_of_find?_eq_some hfind, hsub.symm⟩
      rw [hsub]
      simpa using List.find?_some hfind

theorem next_removable_noFaults_ne_error (db : DB) (e : StoreError) :
    next_removable_deployment noFaults db ≠ .error e := by
  intro h
  simp only [next_removable_deployment, noFaults, Bool.false_eq_true, if_false] at h
  cases hfind : db.subgraph_deployment.find? (fun d => removable db d.id) with
  | none => rw [hfind] at h; simp at h
  | some d0 =>
    rw [hfind] at h
    have hrem : removable db d0.id = true := by simpa using List.find?_some hfind
    have hex : ∃ x ∈ db.deployment_schemas, decide (x.subgraph = d0.id) = true := by
      obtain ⟨⟨r, hr, hr2, _⟩, -, -⟩ := (removable_iff db d0.id).mp hrem
      exact ⟨r, hr, by simp [hr2]⟩
    obtain ⟨r, hr⟩ := Option.isSome_iff_exists.mp (List.find?_isSome.mpr hex)
    simp [find_schema, noFaults, hr] at h

theorem next_removable_none_iff (db : DB)
    (hwfd : ∀ r ∈ db.deployment_schemas, ∃ d ∈ db.subgraph_deployment, d.id = r.subgraph) :
    next_removable_deployment noFaults db = .ok none ↔ ¬ ∃ id, EligibleSpec db id := by
  constructor
  · intro h
    rintro ⟨id, hel⟩
    obtain ⟨r, hr, hrsub, -⟩ := hel.1
    obtain ⟨drow, hdrow, hdid⟩ := hwfd r hr
    have hrem : removable db drow.id = true := by
      rw [hdid, hrsub]
      exact (removable_iff db id).mpr hel
    have hex : ∃ x ∈ db.subgraph_deployment, removable db x.id = true := ⟨drow, hdrow, hrem⟩
    obtain ⟨d0, hd0⟩ := Option.isSome_iff_exists.mp (List.find?_isSome.mpr hex)
    simp only [next_removable_deployment, noFaults, Bool.false_eq_true, if_false, hd0] at h
    have hrem0 : removable db d0.id = true := by simpa using List.find?_some hd0
    have hex0 : ∃ x ∈ db.deployment_schemas, decide (x.subgraph = d0.id) = true := by
      obtain ⟨⟨r0, hr0, hr02, -⟩, -, -⟩ := (removable_iff db d0.id).mp hrem0
      exact ⟨r0, hr0, by simp [hr02]⟩
    obtain ⟨r0, hr0⟩ := Option.isSome_iff_exists.mp (List.find?_isSome.mpr hex0)
    simp [find_schema, noFaults, hr0] at h
  · intro hno
    cases hfind : db.subgraph_deployment.find? (fun d => removable db d.id) with
    | none => simp [next_removable_deployment, noFaults, hfind]
    | some d0 =>
      have hrem : removable db d0.id = true := by simpa using List.find?_some hfind
      exact absurd ⟨d0.id, (removable_iff db d0.id).mp hrem⟩ hno

theorem erased_wf (dep : DeploymentSchema) (db : DB) (drow : SubgraphDeploymentRow)
    (h : WfDB db) : WfDB (erased dep db drow) := by
  constructor
  · intro r hr
    simp only [erased, List.mem_filter, decide_eq_true_eq] at hr ⊢
    exact ⟨h.1 r hr.1, hr.2⟩
  · intro r hr
    simp only [erased, List.mem_filter] at hr
    simpa [erased] using h.2 r hr.1

theorem erased_ds_length_lt (dep : DeploymentSchema) (db : DB) (drow : SubgraphDeploymentRow)
    (hmem : dep ∈ db.deployment_schemas) :
    (erased dep db drow).deployment_schemas.length < db.deployment_schemas.length := by
  simp only [erased]
  exact List.length_filter_lt_length_iff_exists.mpr ⟨dep, hmem, by simp⟩

theorem removal_step_ok (db : DB) (dep : DeploymentSchema) (hwf : WfDB db)
    (h : next_removable_deployment noFaults db = .ok (some dep)) :
    ∃ drow, dep ∈ db.deployment_schemas
      ∧ remove_deployment noFaults dep db =
          .ok (erased dep db drow, (to_i32 drow.entity_count).getD 0,
               ((db.metadata.filter (fun m => decide (m = dep.subgraph))).length : Int)) := by
  obtain ⟨hmem, hrem, drow0, hd0, hid⟩ := next_removable_noFaults_some_inv db dep h
  have hex : ∃ x ∈ db.subgraph_deployment, decide (x.id = dep.subgraph) = true :=
    ⟨drow0, hd0, by simp [hid]⟩
  obtain ⟨drow, hfind⟩ := Option.isSome_iff_exists.mp (List.find?_isSome.mpr hex)
  exact ⟨drow, hmem, remove_deployment_noFaults_eq dep db drow hfind (hwf.1 dep hmem)⟩

theorem removal_loop_aux_err_elapsed (dur : String → Nat) (limit D : Nat)
    (hD : ∀ id, dur id ≤ D) :
    ∀ (fuel : Nat) (db : DB) (elapsed : Nat),
      db.deployment_schemas.length < fuel → WfDB db → elapsed ≤ limit →
      (removal_loop_aux noFaults dur limit fuel db elapsed).err = none
      ∧ (removal_loop_aux noFaults dur limit fuel db elapsed).elapsed ≤ limit + D := by
  intro fuel
  induction fuel with
  | zero => intro db elapsed hlen; exact absurd hlen (Nat.not_lt_zero _)
  | succ n ih =>
    intro db elapsed hlen hwf he
    simp only [removal_loop_aux]
    cases hnext : next_removable_deployment noFaults db with
    | error e => exact absurd hnext (next_removable_noFaults_ne_error db e)
    | ok o =>
      cases o with
      | none => exact ⟨by simp, by simp; omega⟩
      | some dep =>
        obtain ⟨drow, hmem, hrem⟩ := removal_step_ok db dep hwf hnext
        simp only [hrem]
        by_cases hlim : limit < elapsed + dur dep.subgraph
        · rw [if_pos hlim]
          have := hD dep.subgraph
          exact ⟨by simp, by simp; omega⟩
        · rw [if_neg hlim]
          have hlt := erased_ds_length_lt dep db drow hmem
          have hih := ih (erased dep db drow) (elapsed + dur dep.subgraph)
            (by omega) (erased_wf dep db drow hwf) (Nat.le_of_not_lt hlim)
          exact ⟨by simpa using hih.1, by simpa using hih.2⟩

theorem removal_loop_aux_done (dur : String → Nat) (limit : Nat) :
    ∀ (fuel : Nat) (db : DB) (elapsed : Nat),
      db.deployment_schemas.length < fuel → WfDB db →
      (removal_loop_aux noFaults dur limit fuel db elapsed).err = none →
      (removal_loop_aux noFaults dur limit fuel db elapsed).elapsed ≤ limit →
      next_removable_deployment noFaults
          (removal_loop_aux noFaults dur limit fuel db elapsed).db = .ok none
      ∧ WfDB (removal_loop_aux noFaults dur limit fuel db elapsed).db := by
  intro fuel
  induction fuel with
  | zero => intro db elapsed hlen; exact absurd hlen (Nat.not_lt_zero _)
  | succ n ih =>
    intro db elapsed hlen hwf herr hel
    simp only [removal_loop_aux] at herr hel ⊢
    cases hnext : next_removable_deployment noFaults db with
    | error e => exact absurd hnext (next_removable_noFaults_ne_error db e)
    | ok o =>
      cases o with
      | none => exact ⟨by simp; exact hnext, by simp; exact hwf⟩
      | some dep =>
        obtain ⟨drow, hmem, hrem⟩ := removal_step_ok db dep hwf hnext
        rw [hnext] at herr hel
        simp only [hrem] at herr hel ⊢
        by_cases hlim : limit < elapsed + dur dep.subgraph
        · rw [if_pos hlim] at hel
          simp at hel
          omega
        · rw [if_neg hlim] at herr hel ⊢
          have hlt := erased_ds_length_lt dep db drow hmem
          have hih := ih (erased dep db drow) (elapsed + dur dep.subgraph)
            (by omega) (erased_wf dep db drow hwf) (by simpa using herr) (by simpa using hel)
          exact ⟨by simpa using hih.1, by simpa using hih.2⟩

theorem removal_loop_error_rollback (faults : Faults) (dur : String → Nat)
    (limit elapsed : Nat) (db : DB) (dep : DeploymentSchema) (e : StoreError)
    (h1 : next_removable_deployment faults db = .ok (some dep))
    (h2 : remove_deployment faults dep db = .error e) :
    removal_loop faults dur limit db elapsed = ⟨db, [], elapsed, some e⟩ := by
  simp [removal_loop, removal_loop_aux, h1, h2]

theorem removal_loop_of_none (faults : Faults) (dur : String → Nat)
    (limit elapsed : Nat) (db : DB)
    (h : next_removable_deployment faults db = .ok none) :
    removal_loop faults dur limit db elapsed = ⟨db, [], elapsed, none⟩ := by
  simp [removal_loop, removal_loop_aux, h]

/-- A fault environment that makes exactly the statement `s` fail, for
every deployment. -/
def inject (s : Step) : Faults := fun s2 _ => decide (s2 = s)

/-- A small healthy catalog state with one eligible deployment `Qm1` in
schema `sgd1` (relational, unassigned, unreferenced, no statistics row)
and two metadata rows. -/
def w1db : DB :=
  { schemas := [ "sgd1" ]
    deployment_schemas := [⟨ "sgd1", "Qm1", .Relational⟩]
    subgraph_deployment := [⟨ "Qm1", 5, some 7⟩]
    subgraph_deployment_assignment := []
    subgraph := []
    subgraph_version := []
    subgraph_sizes := []
    removed_deployments := []
    metadata := [ "Qm1", "Qm1" ] }

/-- C1: for every catalog state (each cataloged deployment having its
bookkeeping row), `next_removable_deployment` returns some deployment iff
one is eligible — relational storage mode, no assignment row, and no
version row that is the current or pending version of its subgraph — the
returned deployment is itself eligible, and it returns `none` exactly
when no deployment satisfies all three conditions. -/
theorem next_removable_eligibility (db : DB)
    (hwfd : ∀ r ∈ db.deployment_schemas, ∃ d ∈ db.subgraph_deployment, d.id = r.subgraph) :
    (∀ dep, next_removable_deployment noFaults db = .ok (some dep) →
        EligibleSpec db dep.subgraph)
    ∧ ((∃ dep, next_removable_deployment noFaults db = .ok (some dep)) ↔
        ∃ id, EligibleSpec db id)
    ∧ (next_removable_deployment noFaults db = .ok none ↔ ¬ ∃ id, EligibleSpec db id) := by
  have hpart1 : ∀ dep, next_removable_deployment noFaults db = .ok (some dep) →
      EligibleSpec db dep.subgraph := by
    intro dep h
    obtain ⟨-, hrem, -⟩ := next_removable_noFaults_some_inv db dep h
    exact (removable_iff db dep.subgraph).mp hrem
  refine ⟨hpart1, ⟨?_, ?_⟩, next_removable_none_iff db hwfd⟩
  · rintro ⟨dep, h⟩
    exact ⟨dep.subgraph, hpart1 dep h⟩
  · intro hex
    cases hN : next_removable_deployment noFaults db with
    | error e => exact absurd hN (next_removable_noFaults_ne_error db e)
    | ok o =>
      cases o with
      | none => exact absurd hex ((next_removable_none_iff db hwfd).mp hN)
      | some dep => exact ⟨dep, rfl⟩

/-- Witness for C1 at the concrete state `w1db`: the returned candidate
is eligible. -/
theorem next_removable_eligibility_witness : EligibleSpec w1db "Qm1" :=
  (next_removable_eligibility w1db (by decide)).1 ⟨ "sgd1", "Qm1", .Relational⟩ rfl

/-- C5: under no injected faults the candidate finder never fails — in
particular it does not fail on "not found", returning `.ok none` exactly
when no eligible deployment remains — while the secondary `find_schema`
lookup treats a missing schema row as an unrecoverable invariant
violation error rather than as a normal empty result. -/
theorem next_removable_error_behavior :
    (∀ (db : DB) (e : StoreError), next_removable_deployment noFaults db ≠ .error e)
    ∧ (∀ db : DB,
        (∀ r ∈ db.deployment_schemas, ∃ d ∈ db.subgraph_deployment, d.id = r.subgraph) →
        (next_removable_deployment noFaults db = .ok none ↔ ¬ ∃ id, EligibleSpec db id))
    ∧ (∀ (db : DB) (id : String),
        (¬ ∃ r ∈ db.deployment_schemas, r.subgraph = id) →
        find_schema noFaults db id = .error (.invariantViolation id)) := by
  refine ⟨next_removable_noFaults_ne_error, fun db h => next_removable_none_iff db h, ?_⟩
  intro db id h
  have hnone : db.deployment_schemas.find? (fun r => decide (r.subgraph = id)) = none := by
    rw [List.find?_eq_none]
    intro x hx
    simp only [decide_eq_true_eq]
    exact fun hxx => h ⟨x, hx, hxx⟩
  simp [find_schema, noFaults, hnone]

/-- Witness for C5 at concrete inputs. -/
theorem next_removable_error_behavior_witness :
    next_removable_deployment noFaults w1db ≠ .error (.fault .candidateQuery)
    ∧ (next_removable_deployment noFaults w1db = .ok none ↔ ¬ ∃ id, EligibleSpec w1db id)
    ∧ find_schema noFaults w1db "QmMissing" = .error (.invariantViolation "QmMissing") :=
  ⟨next_removable_error_behavior.1 w1db (.fault .candidateQuery),
   next_removable_error_behavior.2.1 w1db (by decide),
   next_removable_error_behavior.2.2 w1db "QmMissing" (by decide)⟩

/-- C2: injecting a failure at any step of `remove_deployment` (metadata
delete, schema drop, catalog-row delete, version delete, name lookup,
bookkeeping read, sizes read, audit insert) makes the removal fail, and
whenever the removal of a candidate fails the enclosing transaction rolls
back and the loop stops: the resulting catalog state is exactly the
initial one — schemas, catalog rows, version rows, and audit rows all
unchanged, no `RemovalRecord` inserted — so no partially removed
deployment is observable. -/
theorem removal_transaction_atomicity :
    (∀ s ∈ removalSteps, ∀ (dep : DeploymentSchema) (db : DB),
        ∃ e, remove_deployment (inject s) dep db = .error e)
    ∧ (∀ (faults : Faults) (dur : String → Nat) (limit elapsed : Nat) (db : DB)
         (dep : DeploymentSchema) (e : StoreError),
        next_removable_deployment faults db = .ok (some dep) →
        remove_deployment faults dep db = .error e →
        removal_loop faults dur limit db elapsed = ⟨db, [], elapsed, some e⟩) := by
  constructor
  · intro s hs dep db
    exact remove_deployment_error_of_fault (inject s) dep db ⟨s, hs, by simp [inject]⟩
  · intro faults dur limit elapsed db dep e h1 h2
    exact removal_loop_error_rollback faults dur limit elapsed db dep e h1 h2

/-- Witness for C2: a fault injected at the schema-drop step on `w1db`
fails the removal, and the loop leaves the state untouched. -/
theorem removal_transaction_atomicity_witness :
    (∃ e, remove_deployment (inject .schemaDrop) ⟨ "sgd1", "Qm1", .Relational⟩ w1db = .error e)
    ∧ removal_loop (inject .schemaDrop) (fun _ => 1) 300 w1db 0 =
        ⟨w1db, [], 0, some (.fault .schemaDrop)⟩ :=
  ⟨removal_transaction_atomicity.1 .schemaDrop (by decide) ⟨ "sgd1", "Qm1", .Relational⟩ w1db,
   removal_transaction_atomicity.2 (inject .schemaDrop) (fun _ => 1) 300 0 w1db
     ⟨ "sgd1", "Qm1", .Relational⟩ (.fault .schemaDrop) rfl rfl⟩

/-- C8: on any error of the candidate finder or of the eraser the loop
stops at once — an error of `next_removable_deployment` ends the loop
immediately with nothing removed and the state unchanged, and an
injected fault on the current candidate's removal likewise ends the loop
in error having removed nothing, leaving the state unchanged — and for
both jobs every failure of the inner work surfaces at the `run` boundary
only as a logged error: `runRemoveJob` and `runVacuumJob` are total and
report the failure in their outcome instead of propagating it. -/
theorem job_failure_boundary :
    (∀ (faults : Faults) (dur : String → Nat) (limit elapsed : Nat) (db : DB)
       (e : StoreError),
        next_removable_deployment faults db = .error e →
        removal_loop faults dur limit db elapsed = ⟨db, [], elapsed, some e⟩)
    ∧ (∀ (faults : Faults) (dur : String → Nat) (limit elapsed : Nat) (db : DB)
       (dep : DeploymentSchema),
        next_removable_deployment faults db = .ok (some dep) →
        (∃ s ∈ removalSteps, faults s dep.subgraph = true) →
        ∃ e, removal_loop faults dur limit db elapsed = ⟨db, [], elapsed, some e⟩)
    ∧ (∀ (faults : Faults) (dur : String → Nat) (db : DB) (e : StoreError),
        faults .getConn "" = false →
        (removal_loop faults dur TIME_LIMIT db 0).err = some e →
        runRemoveJob faults dur db = ⟨(removal_loop faults dur TIME_LIMIT db 0).db, some e⟩)
    ∧ (∀ (faults : Faults) (db : DB) (e : StoreError),
        vacuum faults = .error e → runVacuumJob faults db = ⟨db, some e⟩) := by
  refine ⟨?_, ?_, ?_, ?_⟩
  · intro faults dur limit elapsed db e h
    simp [removal_loop, removal_loop_aux, h]
  · intro faults dur limit elapsed db dep h1 hx
    obtain ⟨e, he⟩ := remove_deployment_error_of_fault faults dep db hx
    exact ⟨e, removal_loop_error_rollback faults dur limit elapsed db dep e h1 he⟩
  · intro faults dur db e hconn herr
    simp [runRemoveJob, hconn, herr]
  · intro faults db e hv
    simp [runVacuumJob, hv]

/-- Witness for C8 at concrete inputs: a candidate-query fault stops the
loop at once with nothing removed, an audit-insert fault stops the loop
with nothing removed, and both `run` boundaries log the failure. -/
theorem job_failure_boundary_witness :
    removal_loop (inject .candidateQuery) (fun _ => 1) 300 w1db 0 =
        ⟨w1db, [], 0, some (.fault .candidateQuery)⟩
    ∧ (∃ e, removal_loop (inject .auditInsert) (fun _ => 1) 300 w1db 0 =
        ⟨w1db, [], 0, some e⟩)
    ∧ runRemoveJob (inject .auditInsert) (fun _ => 1) w1db = ⟨w1db, some (.fault .auditInsert)⟩
    ∧ runVacuumJob (inject .vacuumAnalyze) w1db = ⟨w1db, some (.fault .vacuumAnalyze)⟩ :=
  ⟨job_failure_boundary.1 (inject .candidateQuery) (fun _ => 1) 300 0 w1db
      (.fault .candidateQuery) rfl,
   job_failure_boundary.2.1 (inject .auditInsert) (fun _ => 1) 300 0 w1db
      ⟨ "sgd1", "Qm1", .Relational⟩ rfl ⟨.auditInsert, by decide, by decide⟩,
   job_failure_boundary.2.2.1 (inject .auditInsert) (fun _ => 1) w1db (.fault .auditInsert)
      rfl rfl,
   job_failure_boundary.2.2.2 (inject .vacuumAnalyze) w1db (.fault .vacuumAnalyze) rfl⟩

/-- C4: the loop checks its elapsed-time budget only after each completed
removal, never before: whenever an eligible candidate exists it performs
at least one removal — for any budget, including an already-exhausted
one — it returns successfully, and when every removal takes at most `D`
its total elapsed time exceeds the budget by at most `D`, one removal's
duration. -/
theorem removal_loop_budget (db : DB) (dur : String → Nat) (limit D : Nat)
    (hwf : WfDB db)
    (hcand : ∃ dep, next_removable_deployment noFaults db = .ok (some dep))
    (hD : ∀ id, dur id ≤ D) :
    1 ≤ (removal_loop noFaults dur limit db 0).removed.length
    ∧ (removal_loop noFaults dur limit db 0).err = none
    ∧ (removal_loop noFaults dur limit db 0).elapsed ≤ limit + D := by
  have herrel := removal_loop_aux_err_elapsed dur limit D hD
    (db.deployment_schemas.length + 1) db 0 (by omega) hwf (Nat.zero_le _)
  refine ⟨?_, herrel.1, herrel.2⟩
  obtain ⟨dep, hnext⟩ := hcand
  obtain ⟨drow, hmem, hrem⟩ := removal_step_ok db dep hwf hnext
  simp only [removal_loop, removal_loop_aux, hnext, hrem]
  by_cases hlim : limit < 0 + dur dep.subgraph
  · rw [if_pos hlim]
    simp
  · rw [if_neg hlim]
    simp

/-- Witness for C4 at `w1db` with a zero budget: one removal still
happens, the loop returns without error, within budget plus one
removal. -/
theorem removal_loop_budget_witness :
    1 ≤ (removal_loop noFaults (fun _ => 7) 0 w1db 0).removed.length
    ∧ (removal_loop noFaults (fun _ => 7) 0 w1db 0).err = none
    ∧ (removal_loop noFaults (fun _ => 7) 0 w1db 0).elapsed ≤ 0 + 7 :=
  removal_loop_budget w1db (fun _ => 7) 0 7 ⟨by decide, by decide⟩
    ⟨⟨ "sgd1", "Qm1", .Relational⟩, rfl⟩ (fun _ => le_refl 7)

/-- A catalog state with two eligible deployments, used to exhibit a
second invocation that still makes progress after a budget stop. -/
def c7db : DB :=
  { schemas := [ "sgd1", "sgd2" ]
    deployment_schemas := [⟨ "sgd1", "Qm1", .Relational⟩, ⟨ "sgd2", "Qm2", .Relational⟩]
    subgraph_deployment := [⟨ "Qm1", 1, none⟩, ⟨ "Qm2", 2, none⟩]
    subgraph_deployment_assignment := []
    subgraph := []
    subgraph_version := []
    subgraph_sizes := []
    removed_deployments := []
    metadata := [] }

/-- C7 counterexample: with two eligible deployments and removals that
each take 400 seconds against a 300-second budget, the first invocation
stops after one removal on the exhausted budget and the second
invocation — with no intervening writes — performs one further removal,
not zero. -/
theorem removal_loop_second_run_counterexample :
    (removal_loop noFaults (fun _ => 400) 300 c7db 0).removed.length = 1
    ∧ (removal_loop noFaults (fun _ => 400) 300
        (removal_loop noFaults (fun _ => 400) 300 c7db 0).db 0).removed.length = 1 :=
  ⟨rfl, rfl⟩

/-- C7 (amended): when the first invocation of the loop ends because no
candidate remains — it reports no error and its elapsed time stayed
within the budget — a second invocation with no intervening writes
performs zero removals, and every deployment removed by the first run is
no longer eligible in the resulting state. -/
theorem removal_loop_idempotent (db : DB) (dur : String → Nat) (limit : Nat)
    (hwf : WfDB db)
    (herr : (removal_loop noFaults dur limit db 0).err = none)
    (hel : (removal_loop noFaults dur limit db 0).elapsed ≤ limit) :
    (removal_loop noFaults dur limit (removal_loop noFaults dur limit db 0).db 0).removed = []
    ∧ ∀ dep ∈ (removal_loop noFaults dur limit db 0).removed,
        ¬ EligibleSpec (removal_loop noFaults dur limit db 0).db dep.subgraph := by
  have hdone := removal_loop_aux_done dur limit (db.deployment_schemas.length + 1) db 0
    (by omega) hwf (by simpa [removal_loop] using herr) (by simpa [removal_loop] using hel)
  have hnone : next_removable_deployment noFaults
      (removal_loop noFaults dur limit db 0).db = .ok none := hdone.1
  constructor
  · rw [removal_loop_of_none noFaults dur limit 0 (removal_loop noFaults dur limit db 0).db hnone]
  · intro dep hmem hel2
    have hwfd : ∀ r ∈ (removal_loop noFaults dur limit db 0).db.deployment_schemas,
        ∃ d ∈ (removal_loop noFaults dur limit db 0).db.subgraph_deployment,
          d.id = r.subgraph := hdone.2.2
    exact absurd ⟨dep.subgraph, hel2⟩
      ((next_removable_none_iff (removal_loop noFaults dur limit db 0).db hwfd).mp hnone)

/-- Witness for C7 (amended) at `w1db`: the first run drains the single
candidate within budget; the second run removes nothing. -/
theorem removal_loop_idempotent_witness :
    (removal_loop noFaults (fun _ => 1) 300
        (removal_loop noFaults (fun _ => 1) 300 w1db 0).db 0).removed = []
    ∧ ∀ dep ∈ (removal_loop noFaults (fun _ => 1) 300 w1db 0).removed,
        ¬ EligibleSpec (removal_loop noFaults (fun _ => 1) 300 w1db 0).db dep.subgraph :=
  removal_loop_idempotent w1db (fun _ => 1) 300 ⟨by decide, by decide⟩ rfl (by decide)

/-- C3: after every successful removal starting from a state with no
prior audit row for the deployment, exactly one `RemovalRecord` exists
for its id, its entity count and latest block number equal the
(32-bit-converted) values of the pre-deletion bookkeeping row, and when
no size-statistics row existed all five size fields are null; moreover a
removal succeeds with or without a statistics row present. -/
theorem removal_audit_completeness :
    (∀ (db : DB) (dep : DeploymentSchema) (db2 : DB) (ec mc : Int),
        remove_deployment noFaults dep db = .ok (db2, ec, mc) →
        db.removed_deployments.filter (fun r => decide (r.deployment = dep.subgraph)) = [] →
        ∃ r drow,
          db2.removed_deployments.filter (fun r2 => decide (r2.deployment = dep.subgraph)) = [r]
          ∧ db.subgraph_deployment.find? (fun d => decide (d.id = dep.subgraph)) = some drow
          ∧ r.entity_count = to_i32 drow.entity_count
          ∧ r.latest_ethereum_block_number = drow.latest_ethereum_block_number.bind to_i32
          ∧ (db.subgraph_sizes.find? (fun z => decide (z.subgraph = dep.subgraph)) = none →
              r.row_count = none ∧ r.total_bytes = none ∧ r.index_bytes = none
              ∧ r.toast_bytes = none ∧ r.table_bytes = none))
    ∧ (∀ (db : DB) (dep : DeploymentSchema) (drow : SubgraphDeploymentRow),
        db.subgraph_deployment.find? (fun d => decide (d.id = dep.subgraph)) = some drow →
        dep.name ∈ db.schemas →
        ∃ db2 mc, remove_deployment noFaults dep db =
          .ok (db2, (to_i32 drow.entity_count).getD 0, mc)) := by
  constructor
  · intro db dep db2 ec mc h hempty
    obtain ⟨drow, hfind, hschema, hdb2, hec⟩ := remove_deployment_noFaults_ok_inv dep db db2 ec mc h
    refine ⟨auditRow dep (createdAtOf dep db) (subgraphsOf dep db) drow (sizesOf dep db),
      drow, ?_, hfind, ?_, ?_, ?_⟩
    · subst hdb2
      simp only [erased, List.filter_append]
      rw [hempty]
      simp [auditRow]
    · simp [auditRow]
    · simp [auditRow]
    · intro hsz
      simp [auditRow, sizesOf, hsz]
  · intro db dep drow hfind hschema
    exact ⟨erased dep db drow, _, remove_deployment_noFaults_eq dep db drow hfind hschema⟩

/-- The candidate deployment of the concrete states used in witnesses. -/
def wdep : DeploymentSchema := ⟨ "sgd1", "Qm1", .Relational⟩

/-- Witness for C3 at `w1db` (which has no statistics row): the removal
leaves exactly one audit row with matching bookkeeping values and null
size fields. -/
theorem removal_audit_completeness_witness :
    ∃ r drow,
      (erased wdep w1db ⟨ "Qm1", 5, some 7⟩).removed_deployments.filter
          (fun r2 => decide (r2.deployment = wdep.subgraph)) = [r]
      ∧ w1db.subgraph_deployment.find? (fun d => decide (d.id = wdep.subgraph)) = some drow
      ∧ r.entity_count = to_i32 drow.entity_count
      ∧ r.latest_ethereum_block_number = drow.latest_ethereum_block_number.bind to_i32
      ∧ (w1db.subgraph_sizes.find? (fun z => decide (z.subgraph = wdep.subgraph)) = none →
          r.row_count = none ∧ r.total_bytes = none ∧ r.index_bytes = none
          ∧ r.toast_bytes = none ∧ r.table_bytes = none) :=
  removal_audit_completeness.1 w1db wdep (erased wdep w1db ⟨ "Qm1", 5, some 7⟩) 5 2 rfl rfl

/-- C10: when the bookkeeping row's entity count is not representable as
an i32 the removal still succeeds, returning 0 as the entity count while
recording null for it in the audit row; and a latest block number that
is not representable is likewise recorded as null. -/
theorem removal_entity_count_overflow (db : DB) (dep : DeploymentSchema)
    (drow : SubgraphDeploymentRow)
    (hfind : db.subgraph_deployment.find? (fun d => decide (d.id = dep.subgraph)) = some drow)
    (hschema : dep.name ∈ db.schemas)
    (hbig : to_i32 drow.entity_count = none) :
    ∃ db2 mc r,
      remove_deployment noFaults dep db = .ok (db2, 0, mc)
      ∧ db2.removed_deployments.getLast? = some r
      ∧ r.entity_count = none
      ∧ (∀ b, drow.latest_ethereum_block_number = some b → to_i32 b = none →
          r.latest_ethereum_block_number = none) := by
  refine ⟨erased dep db drow,
    ((db.metadata.filter (fun m => decide (m = dep.subgraph))).length : Int),
    auditRow dep (createdAtOf dep db) (subgraphsOf dep db) drow (sizesOf dep db),
    ?_, ?_, ?_, ?_⟩
  · simp [remove_deployment_noFaults_eq dep db drow hfind hschema, hbig]
  · simp [erased, List.getLast?_concat]
  · simp [auditRow, hbig]
  · intro b hb hnb
    simp [auditRow, hb, hnb]

/-- A catalog state whose single deployment has an entity count and
latest block number that do not fit in an i32. -/
def w10db : DB :=
  { schemas := [ "sgd1" ]
    deployment_schemas := [⟨ "sgd1", "Qm1", .Relational⟩]
    subgraph_deployment := [⟨ "Qm1", 2147483648, some 2147483648⟩]
    subgraph_deployment_assignment := []
    subgraph := []
    subgraph_version := []
    subgraph_sizes := []
    removed_deployments := []
    metadata := [] }

/-- Witness for C10 at `w10db`. -/
theorem removal_entity_count_overflow_witness :
    ∃ db2 mc r,
      remove_deployment noFaults wdep w10db = .ok (db2, 0, mc)
      ∧ db2.removed_deployments.getLast? = some r
      ∧ r.entity_count = none
      ∧ (∀ b, (⟨ "Qm1", 2147483648, some 2147483648⟩ :
            SubgraphDeploymentRow).latest_ethereum_block_number = some b → to_i32 b = none →
          r.latest_ethereum_block_number = none) :=
  removal_entity_count_overflow w10db wdep ⟨ "Qm1", 2147483648, some 2147483648⟩
    rfl (by decide) rfl

theorem min?_eq_some_iff_int (xs : List Int) (a : Int) :
    xs.min? = some a ↔ a ∈ xs ∧ ∀ b ∈ xs, a ≤ b :=
  @List.min?_eq_some_iff Int a _ _ ⟨fun h1 h2 => le_antisymm h1 h2⟩
    (fun x => le_refl x) (fun x y => min_choice x y) (fun _ _ _ => le_min_iff) xs

/-- A catalog state whose single deployment is referenced by one version
row whose creation timestamp does not fit in an i32. -/
def c6db : DB :=
  { schemas := [ "sgd1" ]
    deployment_schemas := [⟨ "sgd1", "Qm1", .Relational⟩]
    subgraph_deployment := [⟨ "Qm1", 1, none⟩]
    subgraph_deployment_assignment := []
    subgraph := [⟨ "s1", "S1", none, none⟩]
    subgraph_version := [⟨ "v1", "Qm1", "s1", 2147483648⟩]
    subgraph_sizes := []
    removed_deployments := []
    metadata := [] }

/-- C6 counterexample: `remove_versions` deletes the single version row
referencing the deployment — `c6db` has exactly one, with creation
timestamp 2147483648 — yet returns `none` as the minimum creation
timestamp, contradicting the claim that `none` is returned exactly when
no version was deleted. -/
theorem remove_versions_counterexample :
    (c6db.subgraph_version.filter (fun v => decide (v.deployment = "Qm1"))).length = 1
    ∧ remove_versions noFaults ⟨ "sgd1", "Qm1", .Relational⟩ c6db =
        .ok ({ c6db with subgraph_version := [] }, none, "S1") :=
  ⟨rfl, rfl⟩

/-- C6 (amended): `remove_versions` deletes every version row referencing
the deployment; the returned timestamp is `none` iff no deleted version
has an i32-representable creation timestamp, and otherwise it is the
least i32-representable creation timestamp among the deleted versions;
and the returned string is the comma-joined names of the subgraph rows
that had a version referencing the deployment. -/
theorem remove_versions_spec (db : DB) (dep : DeploymentSchema) (db1 : DB)
    (created : Option Int) (subs : String)
    (h : remove_versions noFaults dep db = .ok (db1, created, subs)) :
    (∀ v, v ∈ db1.subgraph_version ↔ v ∈ db.subgraph_version ∧ ¬ v.deployment = dep.subgraph)
    ∧ (created = none ↔
        ¬ ∃ v ∈ db.subgraph_version, v.deployment = dep.subgraph ∧
            ∃ t, to_i32 v.created_at = some t)
    ∧ (∀ m, created = some m →
        (∃ v ∈ db.subgraph_version, v.deployment = dep.subgraph ∧ to_i32 v.created_at = some m)
        ∧ (∀ v ∈ db.subgraph_version, v.deployment = dep.subgraph →
            ∀ t, to_i32 v.created_at = some t → m ≤ t))
    ∧ subs = String.intercalate ","
        ((db.subgraph.filter (fun s =>
            decide (∃ v ∈ db.subgraph_version,
              v.deployment = dep.subgraph ∧ v.subgraph = s.id))).map (fun s => s.name)) := by
  rw [remove_versions_eq noFaults dep db rfl rfl] at h
  simp only [Except.ok.injEq, Prod.mk.injEq] at h
  obtain ⟨h1, h2, h3⟩ := h
  subst h1
  subst h2
  subst h3
  refine ⟨?_, ?_, ?_, ?_⟩
  · intro v
    simp [List.mem_filter]
  · rw [createdAtOf, List.filterMap_map, List.min?_eq_none_iff, List.filterMap_eq_nil_iff]
    constructor
    · rintro hall ⟨v, hv, hvd, t, ht⟩
      have hvm : v ∈ deletedVersions dep db := by
        simp only [deletedVersions, List.mem_filter]
        exact ⟨hv, by simp [hvd]⟩
      have hnone := hall v hvm
      simp only [Function.comp, id] at hnone
      rw [hnone] at ht
      cases ht
    · intro hne v hvm
      simp only [deletedVersions, List.mem_filter, decide_eq_true_eq] at hvm
      simp only [Function.comp, id]
      cases hx : to_i32 v.created_at with
      | none => rfl
      | some t => exact absurd ⟨v, hvm.1, hvm.2, t, hx⟩ hne
  · intro m hm
    rw [createdAtOf, List.filterMap_map] at hm
    have hmm := (min?_eq_some_iff_int _ m).mp hm
    constructor
    · obtain ⟨v, hv, hvt⟩ := List.mem_filterMap.mp hmm.1
      simp only [deletedVersions, List.mem_filter, decide_eq_true_eq] at hv
      exact ⟨v, hv.1, hv.2, by simpa using hvt⟩
    · intro v hvm hvd t ht
      apply hmm.2
      apply List.mem_filterMap.mpr
      refine ⟨v, ?_, by simpa using ht⟩
      simp only [deletedVersions, List.mem_filter]
      exact ⟨hvm, by simp [hvd]⟩
  · rw [subgraphsOf]
    congr 1
    congr 1
    apply List.filter_congr
    intro s hs
    rw [decide_eq_decide, List.mem_map]
    constructor
    · rintro ⟨v, hv, hvs⟩
      simp only [deletedVersions, List.mem_filter, decide_eq_true_eq] at hv
      exact ⟨v, hv.1, hv.2, hvs⟩
    · rintro ⟨v, hv, hvd, hvs⟩
      refine ⟨v, ?_, hvs⟩
      simp only [deletedVersions, List.mem_filter]
      exact ⟨hv, by simp [hvd]⟩

/-- Witness for C6 (amended) at `c6db`. -/
theorem remove_versions_spec_witness :
    (∀ v, v ∈ ({ c6db with subgraph_version := [] } : DB).subgraph_version ↔
        v ∈ c6db.subgraph_version ∧ ¬ v.deployment = wdep.subgraph)
    ∧ ((none : Option Int) = none ↔
        ¬ ∃ v ∈ c6db.subgraph_version, v.deployment = wdep.subgraph ∧
            ∃ t, to_i32 v.created_at = some t)
    ∧ (∀ m, (none : Option Int) = some m →
        (∃ v ∈ c6db.subgraph_version, v.deployment = wdep.subgraph ∧
            to_i32 v.created_at = some m)
        ∧ (∀ v ∈ c6db.subgraph_version, v.deployment = wdep.subgraph →
            ∀ t, to_i32 v.created_at = some t → m ≤ t))
    ∧ "S1" = String.intercalate ","
        ((c6db.subgraph.filter (fun s =>
            decide (∃ v ∈ c6db.subgraph_version,
              v.deployment = wdep.subgraph ∧ v.subgraph = s.id))).map (fun s => s.name)) :=
  remove_versions_spec c6db wdep { c6db with subgraph_version := [] } none "S1" rfl

/-- C9 counterexample: `register` performs only one registration and it
is not the unused-deployment reclamation job, contradicting the claim
that the reclamation job is registered at startup alongside the vacuum
job. -/
theorem register_counterexample :
    ¬ ∃ r ∈ register, r.job_name = removeJobName := by decide

/-- C9 (amended): at process startup `register` invokes the scheduler's
registration exactly once, for the vacuum job with a 60-second interval;
the unused-deployment reclamation job, although implemented, is not
registered. -/
theorem register_registrations :
    register.length = 1
    ∧ (∃ r ∈ register, r.job_name = vacuumJobName ∧ r.interval = 60)
    ∧ ¬ ∃ r ∈ register, r.job_name = removeJobName :=
  ⟨rfl, by decide, by decide⟩

end Jobs
